import Mathlib

/-!
Verification of the entity-library / placeholder-substitution component of the
office-js-word-addin-guide repository (`src/entity-insertion.ts`, shown in
`src/unnamed/part_002` and `docs/05-recipes/entity-insertion-patterns.md`).

The embedding covers:
* the placeholder-substitution loop of `insertEntityWithFields`, which runs
  `content.replace(new RegExp("\\[" + placeholder + "\\]", "g"), value)`
  for each `[placeholder, value]` of `Object.entries(fieldValues)` in insertion
  order.  JavaScript regular-expression matching is modelled for the pattern
  subset reachable from that construction (literal characters, `.`, the greedy
  quantifiers `+` and `*`), together with ECMAScript `GetSubstitution`
  semantics for `$` sequences in the replacement string and the `lastIndex`
  advance of a global replace.  Key characters that produce a regex syntax
  error (an unmatched `)` or a quantifier applied to a quantifier) are mapped
  to a `thrown` outcome, since `new RegExp` throws a `SyntaxError` there;
  valid regex constructs outside the modelled subset map to `unmodeled`.
* the `EntityLibrary` class: a JavaScript `Map` (insertion-ordered, keyed by
  entity id) with `getEntity`, `getByCategory` and (from the docs version of
  the class) `search`, plus the default seed entities of `part_002`.

`register` does not exist in the source; it is modelled from the spec (§4.1)
where indicated.
-/

namespace WordAddinGuide

/-! ### JavaScript regex model (the subset reachable from `insertEntityWithFields`) -/

/-- A single-character regex atom: a literal character or `.` (any character
except a line terminator, per ECMAScript). -/
inductive RAtom where
  | lit (c : Char)
  | any
deriving DecidableEq, Repr

/-- A regex element: a bare atom or a greedy Kleene star over an atom.
`a+` is desugared at compile time to the two elements `a` followed by `a*`. -/
inductive RElem where
  | atom (a : RAtom)
  | star (a : RAtom)
deriving DecidableEq, Repr

/-- Does atom `a` match character `c`?  ECMAScript `.` (without the `s` flag)
matches everything except the four line terminators. -/
def atomMatch (a : RAtom) (c : Char) : Bool :=
  match a with
  | .lit d => c = d
  | .any => !(c = Char.ofNat 10 || c = Char.ofNat 13 || c = Char.ofNat 0x2028 || c = Char.ofNat 0x2029)

/-- Greedy backtracking loop for `a*` followed by a continuation `k`:
consume as many `a`-matching characters as possible, backtracking one at a
time until the continuation succeeds. -/
def starLoop (a : RAtom) (k : List Char → Option (List Char)) : List Char → Option (List Char)
  | [] => k []
  | c :: t =>
    if atomMatch a c then
      match starLoop a k t with
      | some r => some r
      | none => k (c :: t)
    else k (c :: t)

/-- Match the regex `re` at the start of `s`; on success return the remaining
suffix of `s` after the matched portion (ECMAScript matching is greedy with
backtracking, which this implements for the modelled subset). -/
def matchHere : List RElem → List Char → Option (List Char)
  | [], s => some s
  | .atom _ :: _, [] => none
  | .atom a :: rs, c :: t => if atomMatch a c then matchHere rs t else none
  | .star a :: rs, s => starLoop a (fun s2 => matchHere rs s2) s

/-- ECMAScript `GetSubstitution` for a pattern with no capture groups:
`$$` is a literal `$`, `$&` is the matched text, a backquote after `$` is the
portion of the original string before the match, `$` followed by an apostrophe
is the portion after the match, and any other `$` sequence is literal text. -/
def getSubstitution : List Char → List Char → List Char → List Char → List Char
  | [], _, _, _ => []
  | c :: t, m, pre, aft =>
    if c = '$' then
      match t with
      | [] => ['$']
      | d :: t2 =>
        if d = '$' then '$' :: getSubstitution t2 m pre aft
        else if d = '&' then m ++ getSubstitution t2 m pre aft
        else if d = Char.ofNat 96 then pre ++ getSubstitution t2 m pre aft
        else if d = Char.ofNat 39 then aft ++ getSubstitution t2 m pre aft
        else '$' :: getSubstitution (d :: t2) m pre aft
    else c :: getSubstitution t m pre aft

/-- Result of compiling the key of a placeholder into the pattern
`\[` key `\]` with `new RegExp`. -/
inductive KeyCompile where
  | ok (re : List RElem)
  | syntaxError
  | unsupported
deriving DecidableEq, Repr

/-- The pending (not yet emitted) atom, if any, as a list of elements. -/
def pendElems : Option RAtom → List RElem
  | none => []
  | some a => [.atom a]

/-- Characters of the key that reach a valid regex construct outside the
modelled subset (`(`-groups, character classes, escapes, alternation,
assertions, lazy quantifiers, brace quantifiers). -/
def unsupportedChars : List Char :=
  ['(', '[', '\\', '|', '^', '$', '?', '{', '}']

/-- Scan the characters of a placeholder key, left to right, building the
regex elements for the middle of the pattern `\[` key `\]`.  `pend` holds the
atom that a following quantifier would apply to (initially the literal `[`
contributed by the `\[` prefix).  An unmatched `)` and a quantifier with no
quantifiable atom before it are `SyntaxError`s of `new RegExp`. -/
def scanKey : List Char → List RElem → Option RAtom → KeyCompile
  | [], acc, pend => .ok (acc ++ pendElems pend)
  | c :: t, acc, pend =>
    if c = ')' then .syntaxError
    else if c ∈ unsupportedChars then .unsupported
    else if c = '.' then scanKey t (acc ++ pendElems pend) (some .any)
    else if c = '+' then
      match pend with
      | some a => scanKey t (acc ++ [.atom a, .star a]) none
      | none => .syntaxError
    else if c = '*' then
      match pend with
      | some a => scanKey t (acc ++ [.star a]) none
      | none => .syntaxError
    else scanKey t (acc ++ pendElems pend) (some (.lit c))

/-- Compile `new RegExp("\\[" + key + "\\]")`: the escaped brackets are the
literal atoms `[` and `]` around the scanned key. -/
def compileKey (key : String) : KeyCompile :=
  match scanKey key.toList [] (some (.lit '[')) with
  | .ok re => .ok (re ++ [.atom (.lit ']')])
  | r => r

/-- One step of a global (`g`-flag) replace, fuelled for structural recursion
(the caller supplies `fuel > s.length`, which is always enough since each step
either consumes a character or a nonempty match).  `pre` is the portion of the
original string before the current position (needed by `GetSubstitution`).
On a match of length `n` the substitution is emitted and scanning resumes
after the matched portion; on an empty match the character at the current
position is kept and scanning advances by one (ECMAScript `lastIndex`
handling); otherwise the character is copied. -/
def replaceGAuxF (re : List RElem) (v : List Char) : Nat → List Char → List Char → List Char
  | 0, _, s => s
  | fuel + 1, pre, s =>
    match matchHere re s with
    | none =>
      match s with
      | [] => []
      | c :: t => c :: replaceGAuxF re v fuel (pre ++ [c]) t
    | some r =>
      let n := s.length - r.length
      if n = 0 then
        match s with
        | [] => getSubstitution v [] pre []
        | c :: t => getSubstitution v [] pre s ++ c :: replaceGAuxF re v fuel (pre ++ [c]) t
      else
        getSubstitution v (s.take n) pre (s.drop n) ++
          replaceGAuxF re v fuel (pre ++ s.take n) (s.drop n)

/-- Outcome of one `content.replace(new RegExp(...), value)` step, and of the
whole substitution loop: a result string, a thrown `SyntaxError` from the
`RegExp` constructor, or an input outside the modelled regex subset. -/
inductive ReplaceResult where
  | ok (s : String)
  | thrown
  | unmodeled
deriving DecidableEq, Repr

/-- `content.replace(new RegExp("\\[" + key + "\\]", "g"), value)`. -/
def replaceJs (s key value : String) : ReplaceResult :=
  match compileKey key with
  | .ok re => .ok ⟨replaceGAuxF re value.toList (s.toList.length + 1) [] s.toList⟩
  | .syntaxError => .thrown
  | .unsupported => .unmodeled

/-- The placeholder-substitution loop of `insertEntityWithFields`
(`src/unnamed/part_002`, lines 261–267): starting from the entity content,
each `[placeholder, value]` pair of `Object.entries(fieldValues)` — insertion
order, modelled as a list — rewrites the current string in turn.  A thrown
`SyntaxError` aborts the loop (nothing catches it inside): `replaceStep` is
one iteration. -/
def replaceStep (acc : ReplaceResult) (kv : String × String) : ReplaceResult :=
  match acc with
  | .ok s => replaceJs s kv.1 kv.2
  | r => r

/-- The whole substitution loop (the spec's `resolvePlaceholders`). -/
def resolvePlaceholders (content : String) (fieldValues : List (String × String)) : ReplaceResult :=
  fieldValues.foldl replaceStep (.ok content)

/-- Key characters with no special regex meaning in the generated pattern:
everything except group/class/escape/alternation/assertion characters, the
quantifiers, `.` and the unmatched `)`.  (A bare `]` is a literal in a
non-`u` ECMAScript pattern.) -/
def plainChar (c : Char) : Bool :=
  !(c = ')' || c = '.' || c = '+' || c = '*' || c ∈ unsupportedChars)

/-- A key whose characters are all plain: the generated regex matches exactly
the literal text `[` key `]`. -/
def plainKey (k : String) : Bool :=
  k.toList.all plainChar

/-- A replacement value with no `$` character: `GetSubstitution` inserts it
verbatim. -/
def dollarFree (v : String) : Bool :=
  !(v.toList.contains '$')

/-- The all-literal regex for a character list. -/
def litElems (l : List Char) : List RElem :=
  l.map (fun c => .atom (.lit c))

/-- Specification-side definition, following the spec's words for
`resolvePlaceholders`: replace every (leftmost, non-overlapping) occurrence of
the literal pattern `p :: pat` by `v`, scanning left to right — "textual and
global (all occurrences of each placeholder are replaced), not limited to
first occurrence". -/
def replaceEveryOccurrence (p : Char) (pat v : List Char) : List Char → List Char
  | [] => []
  | c :: t =>
    if (p :: pat) <+: (c :: t) then v ++ replaceEveryOccurrence p pat v (t.drop pat.length)
    else c :: replaceEveryOccurrence p pat v t
  termination_by s => s.length
  decreasing_by
    · simp only [List.length_drop, List.length_cons]; omega
    · simp

/-! ### The entity library (`src/unnamed/part_002`, lines 140–215, and the
docs version of the class for `search`) -/

/-- The closed category union of `StandardEntity`:
`'legal' | 'boilerplate' | 'signature' | 'header' | 'footer'`. -/
inductive Category where
  | legal
  | boilerplate
  | signature
  | header
  | footer
deriving DecidableEq, Repr

/-- `StandardEntity`.  `lastUpdated : Date` is modelled as its source string. -/
structure StandardEntity where
  id : String
  name : String
  category : Category
  content : String
  version : String
  lastUpdated : String
deriving DecidableEq, Repr

/-- `EntityWithFields`: an entity id plus a placeholder-to-value mapping
(a plain JS object; `Object.entries` order is insertion order, modelled as a
list). -/
structure EntityWithFields where
  entityId : String
  fieldValues : List (String × String)
deriving DecidableEq, Repr

/-- `EntityLibrary`: the private `Map<string, StandardEntity>`.  A JS `Map`
iterates in insertion order, so it is modelled as an insertion-ordered
association list. -/
structure EntityLibrary where
  entities : List (String × StandardEntity)
deriving DecidableEq, Repr

/-- JS `Map.prototype.set`: overwrite in place if the key is present (the
entry keeps its original position), otherwise append at the end. -/
def mapSet (m : List (String × StandardEntity)) (k : String) (v : StandardEntity) :
    List (String × StandardEntity) :=
  if m.any (fun p => p.1 = k) then
    m.map (fun p => if p.1 = k then (k, v) else p)
  else m ++ [(k, v)]

/-- `getEntity(id)`: `this.entities.get(id)`; `undefined` is `none`. -/
def getEntity (lib : EntityLibrary) (id : String) : Option StandardEntity :=
  (lib.entities.find? (fun p => p.1 = id)).map Prod.snd

/-- `Array.from(this.entities.values())`: the stored entities in insertion
order. -/
def libValues (lib : EntityLibrary) : List StandardEntity :=
  lib.entities.map Prod.snd

/-- `getByCategory(category)`: `values().filter(e => e.category === category)`. -/
def getByCategory (lib : EntityLibrary) (category : Category) : List StandardEntity :=
  (libValues lib).filter (fun e => e.category = category)

/-- Per-character mapping of JS `toLowerCase` (Unicode Default Case
Conversion, which can map one character to several).  Modelled exactly on the
ASCII range plus the special casings that make naive case-insensitivity fail:
`ẞ` (U+1E9E) lowercases to `ß` (U+00DF) and `İ` (U+0130) to `i` followed by
combining dot above (U+0307); characters outside this repertoire are left
unchanged.  The theorems below rely on the mapping only for ASCII characters,
where the model is exact, and on `ß`/`ı`, which ECMAScript maps as here. -/
def jsLowerChar (c : Char) : List Char :=
  if 65 ≤ c.toNat ∧ c.toNat ≤ 90 then [Char.ofNat (c.toNat + 32)]
  else if c.toNat = 0x1E9E then [Char.ofNat 0xDF]
  else if c.toNat = 0x130 then [Char.ofNat 0x69, Char.ofNat 0x307]
  else [c]

/-- Per-character mapping of JS `toUpperCase`: the ASCII range plus
`ß` (U+00DF) uppercasing to `SS` and `ı` (U+0131) to `I`; other characters
are left unchanged (same coverage note as `jsLowerChar`). -/
def jsUpperChar (c : Char) : List Char :=
  if 97 ≤ c.toNat ∧ c.toNat ≤ 122 then [Char.ofNat (c.toNat - 32)]
  else if c.toNat = 0xDF then [Char.ofNat 0x53, Char.ofNat 0x53]
  else if c.toNat = 0x131 then [Char.ofNat 0x49]
  else [c]

/-- `s.toLowerCase()`. -/
def lowerStr (s : String) : String :=
  ⟨s.toList.flatMap jsLowerChar⟩

/-- `s.toUpperCase()`. -/
def upperStr (s : String) : String :=
  ⟨s.toList.flatMap jsUpperChar⟩

/-- `s.includes(sub)`: substring containment. -/
def strIncludes (s sub : String) : Bool :=
  decide (sub.toList <:+: s.toList)

/-- `search(query)` (docs version of `EntityLibrary`): lowercase the query
and keep the entities whose lowercased `name` or `content` contains it. -/
def search (lib : EntityLibrary) (query : String) : List StandardEntity :=
  (libValues lib).filter
    (fun e => strIncludes (lowerStr e.name) (lowerStr query) ||
              strIncludes (lowerStr e.content) (lowerStr query))

/-- The default seed entities of `loadDefaultEntities` (`part_002`). -/
def defaultEntities : List StandardEntity :=
  [ { id := "confidentiality-clause"
    , name := "Confidentiality Clause"
    , category := .legal
    , content := "Both parties agree to maintain the confidentiality of all proprietary information disclosed during the term of this agreement."
    , version := "1.0"
    , lastUpdated := "2024-01-01" }
  , { id := "governing-law"
    , name := "Governing Law"
    , category := .legal
    , content := "This Agreement shall be governed by and construed in accordance with the laws of the State of [STATE]."
    , version := "2.1"
    , lastUpdated := "2024-02-15" }
  , { id := "company-signature"
    , name := "Company Signature Block"
    , category := .signature
    , content := "ACME CORPORATION\n\nBy: _______________________\nName: [AUTHORIZED_NAME]\nTitle: [AUTHORIZED_TITLE]"
    , version := "1.0"
    , lastUpdated := "2024-01-01" } ]

/-- `loadDefaultEntities`: `for (const entity of defaults) set(entity.id, entity)`,
starting from an empty map (run by the constructor). -/
def entityLibrary : EntityLibrary :=
  ⟨defaultEntities.foldl (fun m e => mapSet m e.id e) []⟩

/-- Outcome of `insertEntityWithFields`, up to the host `insertText` call
(out of scope): the thrown not-found error, or the resolved text handed to
`range.insertText`. -/
inductive InsertOutcome where
  | notFound (msg : String)
  | resolved (r : ReplaceResult)
deriving DecidableEq, Repr

/-- `insertEntityWithFields` (`part_002`, lines 246–268): look the entity up,
throw if absent, otherwise resolve the placeholders of its content and hand
the result to the host.  The library itself is only read. -/
def insertEntityWithFields (lib : EntityLibrary) (ewf : EntityWithFields) : InsertOutcome :=
  match getEntity lib ewf.entityId with
  | none => .notFound ("Entity not found: " ++ ewf.entityId)
  | some e => .resolved (resolvePlaceholders e.content ewf.fieldValues)

/-- Registration input whose category is still an unvalidated string
(the boundary where `InvalidCategory` can arise). -/
structure RawEntity where
  id : String
  name : String
  category : String
  content : String
  version : String
  lastUpdated : String
deriving DecidableEq, Repr

/-- Modelled from the spec: the error taxonomy of §7 for `register`
(`InvalidCategory`); `register` itself does not exist in `src/`. -/
inductive RegisterError where
  | invalidCategory
deriving DecidableEq, Repr

/-- Modelled from the spec: parsing a category string against the closed
enumeration {legal, boilerplate, signature, header, footer}. -/
def parseCategory (s : String) : Option Category :=
  if s = "legal" then some .legal
  else if s = "boilerplate" then some .boilerplate
  else if s = "signature" then some .signature
  else if s = "header" then some .header
  else if s = "footer" then some .footer
  else none

/-- The entity stored for a validated registration input. -/
def mkEntity (e : RawEntity) (c : Category) : StandardEntity :=
  { id := e.id, name := e.name, category := c, content := e.content
  , version := e.version, lastUpdated := e.lastUpdated }

/-- Modelled from the spec (§4.1): `register(entity) -> void` is absent from
`src/`; it "inserts or overwrites by `id`" using the same `Map.set` the
source's `loadDefaultEntities` uses, and "fails with `InvalidCategory` if
category is outside the closed enumeration".  The pair returns the (possibly
updated) catalog and the error, so that a failed call visibly leaves the
catalog unchanged. -/
def register (lib : EntityLibrary) (e : RawEntity) : EntityLibrary × Option RegisterError :=
  match parseCategory e.category with
  | none => (lib, some .invalidCategory)
  | some c => (⟨mapSet lib.entities e.id (mkEntity e c)⟩, none)

/-- The `Map` invariant every library reachable from the source satisfies:
keys are unique (a JS `Map` cannot hold a key twice) and every entry is
stored under its entity's id (`set(entity.id, entity)`). -/
def libWF (lib : EntityLibrary) : Prop :=
  (lib.entities.map Prod.fst).Nodup ∧ ∀ p ∈ lib.entities, p.1 = p.2.id

instance : DecidablePred libWF := fun lib => by
  unfold libWF; infer_instance

/-! ### Regex-model lemmas -/

/-- A `$`-free replacement value is substituted verbatim. -/
theorem getSubstitution_dollarFree (m pre aft : List Char) :
    ∀ v : List Char, '$' ∉ v → getSubstitution v m pre aft = v := by
  intro v
  induction v with
  | nil => intro _; rfl
  | cons c t ih =>
    intro h
    have hc : ¬ c = '$' := fun hc => h (hc ▸ List.mem_cons_self c t)
    have ht : '$' ∉ t := fun hm => h (List.mem_cons_of_mem c hm)
    cases t with
    | nil => simp only [getSubstitution, if_neg hc]
    | cons d t2 => simp only [getSubstitution, if_neg hc, ih ht]

theorem litElems_cons (c : Char) (l : List Char) :
    litElems (c :: l) = .atom (.lit c) :: litElems l := rfl

/-- An all-literal regex matches exactly its own character sequence. -/
theorem matchHere_lit : ∀ (pat s : List Char),
    matchHere (litElems pat) s = if pat <+: s then some (s.drop pat.length) else none
  | [], s => by simp [litElems, matchHere]
  | p :: ps, [] => by simp [litElems, matchHere]
  | p :: ps, c :: t => by
    rw [litElems_cons]
    simp only [matchHere, atomMatch, List.length_cons, List.drop_succ_cons,
      List.cons_prefix_cons, decide_eq_true_eq]
    by_cases h : c = p
    · subst h
      rw [if_pos rfl, matchHere_lit ps t]
      by_cases hp : ps <+: t
      · rw [if_pos hp, if_pos ⟨rfl, hp⟩]
      · rw [if_neg hp, if_neg (fun hc => hp hc.2)]
    · rw [if_neg (by simpa using h), if_neg (fun hc => h hc.1.symm)]

/-- Scanning a key of plain characters yields the literal atoms, one per
character. -/
theorem scanKey_plain : ∀ (cs : List Char) (acc : List RElem) (a : RAtom),
    (∀ c ∈ cs, plainChar c) → scanKey cs acc (some a) = .ok (acc ++ .atom a :: litElems cs)
  | [], acc, a, _ => by simp [scanKey, pendElems, litElems]
  | c :: t, acc, a, h => by
    have hc : plainChar c = true := h c (List.mem_cons_self c t)
    have ht : ∀ x ∈ t, plainChar x := fun x hx => h x (List.mem_cons_of_mem c hx)
    have hc' : (((¬c = ')' ∧ ¬c = '.') ∧ ¬c = '+') ∧ ¬c = '*') ∧ c ∉ unsupportedChars := by
      simpa [plainChar, not_or, -List.mem_cons] using hc
    obtain ⟨⟨⟨⟨h1, h2⟩, h3⟩, h4⟩, h5⟩ := hc'
    rw [scanKey, if_neg h1, if_neg h5, if_neg h2,
      if_neg h3, if_neg h4, scanKey_plain t (acc ++ pendElems (some a)) (.lit c) ht]
    simp [pendElems, litElems]

/-- Compiling a plain key yields the all-literal regex for `[` key `]`. -/
theorem compileKey_plain (k : String) (hk : plainKey k = true) :
    compileKey k = .ok (litElems ('[' :: k.toList ++ [']'])) := by
  have h : ∀ c ∈ k.toList, plainChar c := by
    intro c hc
    exact List.all_eq_true.1 hk c hc
  rw [compileKey, scanKey_plain k.toList [] (.lit '[') h]
  simp [litElems]

/-- For a plain literal pattern and a `$`-free value, the fuelled global
replace is exactly "replace every occurrence of the pattern". -/
theorem replaceGAuxF_lit (p : Char) (pat v : List Char) (hv : '$' ∉ v) :
    ∀ (fuel : Nat) (s pre : List Char), s.length < fuel →
      replaceGAuxF (litElems (p :: pat)) v fuel pre s = replaceEveryOccurrence p pat v s := by
  intro fuel
  induction fuel with
  | zero => intro s pre h; exact absurd h (by omega)
  | succ f ih =>
    intro s pre h
    by_cases hp : (p :: pat) <+: s
    · obtain ⟨r, rfl⟩ := hp
      have hm : matchHere (litElems (p :: pat)) ((p :: pat) ++ r) = some r := by
        rw [matchHere_lit, if_pos ⟨r, rfl⟩, List.drop_left]
      have hlen : ((p :: pat) ++ r).length - r.length = pat.length + 1 := by
        simp only [List.length_append, List.length_cons]
        omega
      rw [replaceGAuxF.eq_def]
      simp only [hm, hlen]
      rw [if_neg (by omega : ¬(pat.length + 1 = 0))]
      rw [List.take_left' (by simp : (p :: pat).length = pat.length + 1),
        List.drop_left' (by simp : (p :: pat).length = pat.length + 1)]
      rw [getSubstitution_dollarFree _ _ _ _ hv]
      have hr : r.length < f := by
        simp only [List.length_append, List.length_cons] at h
        omega
      rw [ih r _ hr]
      conv_rhs => rw [List.cons_append, replaceEveryOccurrence]
      rw [if_pos (show (p :: pat) <+: p :: (pat ++ r) from ⟨r, by simp⟩), List.drop_left]
    · cases s with
      | nil =>
        have hm : matchHere (litElems (p :: pat)) [] = none := by
          rw [matchHere_lit, if_neg (by simp)]
        rw [replaceGAuxF.eq_def]
        simp [hm, replaceEveryOccurrence]
      | cons c t =>
        have hm : matchHere (litElems (p :: pat)) (c :: t) = none := by
          rw [matchHere_lit, if_neg hp]
        have ht : t.length < f := by
          simp only [List.length_cons] at h
          omega
        rw [replaceGAuxF.eq_def]
        simp only [hm]
        rw [ih t _ ht, replaceEveryOccurrence, if_neg hp]

/-- If the literal pattern occurs nowhere in the string, the global replace
is the identity (for any replacement value). -/
theorem replaceGAuxF_noOccur (p : Char) (pat v : List Char) :
    ∀ (fuel : Nat) (s pre : List Char), s.length < fuel → ¬ (p :: pat) <:+: s →
      replaceGAuxF (litElems (p :: pat)) v fuel pre s = s := by
  intro fuel
  induction fuel with
  | zero => intro s pre h; exact absurd h (by omega)
  | succ f ih =>
    intro s pre h hocc
    have hp : ¬ (p :: pat) <+: s := fun hpre => hocc hpre.isInfix
    cases s with
    | nil =>
      have hm : matchHere (litElems (p :: pat)) [] = none := by
        rw [matchHere_lit, if_neg (by simp)]
      rw [replaceGAuxF.eq_def]
      simp [hm]
    | cons c t =>
      have hm : matchHere (litElems (p :: pat)) (c :: t) = none := by
        rw [matchHere_lit, if_neg hp]
      have ht : t.length < f := by
        simp only [List.length_cons] at h
        omega
      have hocct : ¬ (p :: pat) <:+: t := by
        intro hin
        obtain ⟨s1, s2, hs⟩ := hin
        exact hocc ⟨c :: s1, s2, by simp [← hs]⟩
      rw [replaceGAuxF.eq_def]
      simp only [hm]
      rw [ih t _ ht hocct]

theorem dollarFree_notMem {v : String} (hv : dollarFree v = true) : '$' ∉ v.toList := by
  simpa [dollarFree] using hv

/-- One `replace` step with a plain key and a `$`-free value replaces every
occurrence of the literal token `[` key `]`. -/
theorem replaceJs_plain (s k v : String) (hk : plainKey k = true) (hv : dollarFree v = true) :
    replaceJs s k v = .ok ⟨replaceEveryOccurrence '[' (k.toList ++ [']']) v.toList s.toList⟩ := by
  simp only [replaceJs, compileKey_plain k hk, List.cons_append]
  rw [replaceGAuxF_lit '[' (k.toList ++ [']']) v.toList (dollarFree_notMem hv)
    (s.toList.length + 1) s.toList [] (by omega)]

/-- One `replace` step with a plain key never throws. -/
theorem replaceJs_plain_total (s k v : String) (hk : plainKey k = true) :
    ∃ out, replaceJs s k v = .ok out := by
  simp only [replaceJs, compileKey_plain k hk]
  exact ⟨_, rfl⟩

theorem resolvePlaceholders_single (content k v : String) :
    resolvePlaceholders content [(k, v)] = replaceJs content k v := rfl

theorem foldl_replaceStep_thrown (vs : List (String × String)) :
    vs.foldl replaceStep .thrown = .thrown := by
  induction vs with
  | nil => rfl
  | cons kv rest ih => simpa [replaceStep] using ih

theorem foldl_replaceStep_ok (content : String) (vs : List (String × String)) :
    vs.foldl replaceStep (.ok content) = resolvePlaceholders content vs := rfl

theorem resolvePlaceholders_cons_ok (content s : String) (kv : String × String)
    (vs : List (String × String)) (h : replaceJs content kv.1 kv.2 = .ok s) :
    resolvePlaceholders content (kv :: vs) = resolvePlaceholders s vs := by
  simp [resolvePlaceholders, replaceStep, h]

/-- The whole substitution loop is total (never throws, stays in the model)
when every key is plain. -/
theorem resolvePlaceholders_plainTotal :
    ∀ (vs : List (String × String)) (content : String), (∀ kv ∈ vs, plainKey kv.1 = true) →
      ∃ out, resolvePlaceholders content vs = .ok out
  | [], content, _ => ⟨content, rfl⟩
  | kv :: vs, content, h => by
    obtain ⟨s1, hs1⟩ := replaceJs_plain_total content kv.1 kv.2 (h kv (List.mem_cons_self kv vs))
    obtain ⟨out, hout⟩ := resolvePlaceholders_plainTotal vs s1
      (fun x hx => h x (List.mem_cons_of_mem kv hx))
    exact ⟨out, by rw [resolvePlaceholders_cons_ok content s1 kv vs hs1, hout]⟩

/-! ### Character and string lemmas -/

theorem charToNat_ofNat {n : Nat} (hv : Nat.isValidChar n) : (Char.ofNat n).toNat = n := by
  simp [Char.ofNat, hv, Char.ofNatAux, Char.toNat, UInt32.toNat, BitVec.toNat_ofNatLt]

theorem charOfNat_toNat (c : Char) : Char.ofNat c.toNat = c := by
  have hv : Nat.isValidChar c.toNat := c.valid
  apply Char.ext
  apply UInt32.ext
  exact charToNat_ofNat hv

theorem flatMapCongrMem : ∀ {l : List Char} {f g : Char → List Char},
    (∀ c ∈ l, f c = g c) → l.flatMap f = l.flatMap g
  | [], _, _, _ => rfl
  | c :: t, f, g, h => by
    simp only [List.flatMap_cons]
    rw [h c (List.mem_cons_self c t),
      flatMapCongrMem (fun x hx => h x (List.mem_cons_of_mem c hx))]

/-- For an ASCII character, lowercasing after uppercasing is the same as
lowercasing.  (This is false of JS for `ß` and `ı`, whose upper-case forms
lowercase to `ss` and `i`.) -/
theorem jsLowerChar_jsUpperChar (c : Char) (h : c.toNat < 128) :
    (jsUpperChar c).flatMap jsLowerChar = jsLowerChar c := by
  by_cases hl : 97 ≤ c.toNat ∧ c.toNat ≤ 122
  · have hv : Nat.isValidChar (c.toNat - 32) := Or.inl (by omega)
    rw [jsUpperChar, if_pos hl]
    have hsing : ([Char.ofNat (c.toNat - 32)] : List Char).flatMap jsLowerChar
        = jsLowerChar (Char.ofNat (c.toNat - 32)) := by simp
    rw [hsing, jsLowerChar, charToNat_ofNat hv,
      if_pos (by omega : 65 ≤ c.toNat - 32 ∧ c.toNat - 32 ≤ 90)]
    rw [jsLowerChar, if_neg (by omega : ¬(65 ≤ c.toNat ∧ c.toNat ≤ 90)),
      if_neg (by omega : ¬(c.toNat = 0x1E9E)), if_neg (by omega : ¬(c.toNat = 0x130))]
    have h32 : c.toNat - 32 + 32 = c.toNat := by omega
    rw [h32, charOfNat_toNat]
  · rw [jsUpperChar, if_neg hl, if_neg (by omega : ¬(c.toNat = 0xDF)),
      if_neg (by omega : ¬(c.toNat = 0x131))]
    simp

/-- For an ASCII query, `q.toUpperCase().toLowerCase() = q.toLowerCase()`. -/
theorem lowerStr_upperStr_ascii (q : String) (h : ∀ c ∈ q.toList, c.toNat < 128) :
    lowerStr (upperStr q) = lowerStr q := by
  unfold lowerStr upperStr
  congr 1
  show (q.toList.flatMap jsUpperChar).flatMap jsLowerChar = q.toList.flatMap jsLowerChar
  rw [List.flatMap_assoc]
  exact flatMapCongrMem (fun c hc => jsLowerChar_jsUpperChar c (h c hc))

/-! ### Library lemmas -/

/-- With unique keys, `find?` on the key returns the entry for that key. -/
theorem find?_key_of_nodup :
    ∀ (m : List (String × StandardEntity)) (k : String) (e : StandardEntity),
      (m.map Prod.fst).Nodup → (k, e) ∈ m → m.find? (fun p => p.1 = k) = some (k, e)
  | [], k, e, _, hm => absurd hm (List.not_mem_nil _)
  | (k0, v0) :: rest, k, e, hnd, hm => by
    have hnd' : k0 ∉ rest.map Prod.fst ∧ (rest.map Prod.fst).Nodup := by
      rw [List.map_cons, List.nodup_cons] at hnd
      exact hnd
    rcases List.mem_cons.1 hm with heq | hrest
    · obtain ⟨rfl, rfl⟩ : k0 = k ∧ v0 = e := by
        injection heq with h1 h2
        exact ⟨h1.symm, h2.symm⟩
      exact List.find?_cons_of_pos _ (by simp)
    · have hk : ¬(k0 = k) := by
        intro hk0
        subst hk0
        exact hnd'.1 (List.mem_map.2 ⟨(k0, e), hrest, rfl⟩)
      rw [List.find?_cons_of_neg _ (by simpa using hk)]
      exact find?_key_of_nodup rest k e hnd'.2 hrest

/-- Round trip: a stored entity is returned, intact, by `getEntity` on its
key. -/
theorem getEntity_of_mem {lib : EntityLibrary} {k : String} {e : StandardEntity}
    (hwf : libWF lib) (hm : (k, e) ∈ lib.entities) : getEntity lib k = some e := by
  rw [getEntity, find?_key_of_nodup lib.entities k e hwf.1 hm]
  rfl

/-- Every value of a well-formed library is found under its own id. -/
theorem getEntity_of_mem_values {lib : EntityLibrary} {e : StandardEntity}
    (hwf : libWF lib) (he : e ∈ libValues lib) : getEntity lib e.id = some e := by
  obtain ⟨p, hp, hpe⟩ := List.mem_map.1 he
  have hid : p.1 = e.id := by rw [hwf.2 p hp, hpe]
  apply getEntity_of_mem hwf
  have : p = (e.id, e) := by
    cases p
    simp only at hpe hid
    rw [hpe, hid]
  exact this ▸ hp

/-- A successful lookup returns an entity stored under its own id. -/
theorem getEntity_eq_some {lib : EntityLibrary} {k : String} {e : StandardEntity}
    (hwf : libWF lib) (h : getEntity lib k = some e) : e.id = k ∧ (k, e) ∈ lib.entities := by
  rw [getEntity] at h
  obtain ⟨p, hfind, hpe⟩ := Option.map_eq_some'.1 h
  have hmem : p ∈ lib.entities := List.mem_of_find?_eq_some hfind
  have hpk : p.1 = k := by simpa using List.find?_some hfind
  have hpid : p.1 = p.2.id := hwf.2 p hmem
  constructor
  · rw [hpe] at hpid
    rw [← hpid, hpk]
  · have : p = (k, e) := by
      cases p
      simp only at hpe hpk
      rw [hpe, hpk]
    exact this ▸ hmem

theorem mapSet_cons_ne {q : String × StandardEntity} {rest : List (String × StandardEntity)}
    {k : String} {v : StandardEntity} (hq : ¬(q.1 = k)) :
    mapSet (q :: rest) k v = q :: mapSet rest k v := by
  unfold mapSet
  by_cases h : rest.any (fun p => decide (p.1 = k)) <;> simp [List.any_cons, hq, h]

/-- After `set`, the entry for the key holds the new value. -/
theorem find?_mapSet :
    ∀ (m : List (String × StandardEntity)) (k : String) (v : StandardEntity),
      (mapSet m k v).find? (fun p => p.1 = k) = some (k, v)
  | [], k, v => by simp [mapSet, List.find?]
  | q :: rest, k, v => by
    by_cases hq : q.1 = k
    · have hany : (q :: rest).any (fun p => decide (p.1 = k)) = true := by
        simp [List.any_cons, hq]
      unfold mapSet
      rw [if_pos (by simpa using hany)]
      simp only [List.map_cons, if_pos hq]
      exact List.find?_cons_of_pos _ (by simp)
    · rw [mapSet_cons_ne hq, List.find?_cons_of_neg _ (by simpa using hq)]
      exact find?_mapSet rest k v

theorem getEntity_mapSet (m : List (String × StandardEntity)) (k : String) (v : StandardEntity) :
    getEntity ⟨mapSet m k v⟩ k = some v := by
  rw [getEntity]
  show ((mapSet m k v).find? (fun p => p.1 = k)).map Prod.snd = some v
  rw [find?_mapSet m k v]
  rfl

/-- Every value of the map after `set` is the new value or an old value
stored under a different key. -/
theorem mem_values_mapSet {m : List (String × StandardEntity)} {k : String}
    {v x : StandardEntity} (hx : x ∈ (mapSet m k v).map Prod.snd) :
    x = v ∨ ∃ p, p ∈ m ∧ ¬(p.1 = k) ∧ p.2 = x := by
  unfold mapSet at hx
  by_cases h : m.any (fun p => decide (p.1 = k))
  · rw [if_pos (by simpa using h)] at hx
    rw [List.map_map] at hx
    obtain ⟨p, hp, hpx⟩ := List.mem_map.1 hx
    by_cases hpk : p.1 = k
    · left
      simp only [Function.comp_apply, if_pos hpk] at hpx
      exact hpx.symm
    · right
      refine ⟨p, hp, hpk, ?_⟩
      simpa only [Function.comp_apply, if_neg hpk] using hpx
  · rw [if_neg (by simpa using h)] at hx
    rw [List.map_append, List.mem_append] at hx
    have hnone : ∀ p ∈ m, ¬(p.1 = k) := by
      intro p hpm hpk
      exact h (List.any_eq_true.2 ⟨p, hpm, by simpa using hpk⟩)
    rcases hx with hx | hx
    · right
      obtain ⟨p, hp, hpx⟩ := List.mem_map.1 hx
      exact ⟨p, hp, hnone p hp, hpx⟩
    · left
      simpa using hx

theorem register_of_valid {lib : EntityLibrary} {e : RawEntity} {c : Category}
    (h : parseCategory e.category = some c) :
    register lib e = (⟨mapSet lib.entities e.id (mkEntity e c)⟩, none) := by
  simp [register, h]

theorem register_of_invalid {lib : EntityLibrary} {e : RawEntity}
    (h : parseCategory e.category = none) :
    register lib e = (lib, some .invalidCategory) := by
  simp [register, h]

/-- A category string outside the closed enumeration does not parse. -/
theorem parseCategory_eq_none {s : String}
    (h : ¬ s ∈ (["legal", "boilerplate", "signature", "header", "footer"] : List String)) :
    parseCategory s = none := by
  simp only [List.mem_cons, List.not_mem_nil, or_false, not_or] at h
  obtain ⟨h1, h2, h3, h4, h5⟩ := h
  simp [parseCategory, h1, h2, h3, h4, h5]

/-! ### Search lemmas -/

theorem strIncludes_empty (s : String) : strIncludes s "" = true :=
  decide_eq_true ⟨[], s.toList, by simp⟩

theorem search_upperStr_ascii (lib : EntityLibrary) (q : String)
    (h : ∀ c ∈ q.toList, c.toNat < 128) :
    search lib (upperStr q) = search lib q := by
  unfold search
  rw [lowerStr_upperStr_ascii q h]

theorem search_empty (lib : EntityLibrary) : search lib "" = libValues lib := by
  unfold search
  apply List.filter_eq_self.2
  intro e _
  rw [show lowerStr "" = "" from rfl, strIncludes_empty]
  rfl

theorem mem_search (lib : EntityLibrary) (q : String) (e : StandardEntity) :
    e ∈ search lib q ↔ e ∈ libValues lib ∧
      (strIncludes (lowerStr e.name) (lowerStr q) = true ∨
       strIncludes (lowerStr e.content) (lowerStr q) = true) := by
  unfold search
  rw [List.mem_filter, Bool.or_eq_true]

theorem mem_getByCategory (lib : EntityLibrary) (c : Category) (e : StandardEntity) :
    e ∈ getByCategory lib c ↔ e ∈ libValues lib ∧ e.category = c := by
  unfold getByCategory
  rw [List.mem_filter, decide_eq_true_eq]

/-! ### Concrete libraries and entities used by the witnesses -/

def entA : StandardEntity :=
  { id := "e1", name := "Alpha Clause", category := .legal, content := "[X] text"
  , version := "1.0", lastUpdated := "2024-01-01" }

def lib0 : EntityLibrary := ⟨[("e1", entA)]⟩

def rawA2 : RawEntity :=
  { id := "e1", name := "Alpha Clause v2", category := "legal", content := "new text"
  , version := "2.0", lastUpdated := "2024-05-01" }

def rawBad : RawEntity :=
  { id := "bad", name := "Bad", category := "invalid-value", content := "c"
  , version := "1.0", lastUpdated := "2024-01-01" }

def rawZeta : RawEntity :=
  { id := "zeta", name := "Zeta Clause", category := "legal", content := "z"
  , version := "1.0", lastUpdated := "2024-01-01" }

def rawAlpha : RawEntity :=
  { id := "alpha", name := "Alpha Clause", category := "legal", content := "a"
  , version := "1.0", lastUpdated := "2024-01-01" }

/-- A library built by registering `rawZeta` first, then `rawAlpha`. -/
def demoLib : EntityLibrary := (register (register ⟨[]⟩ rawZeta).1 rawAlpha).1

/-! ### Claim C1 -/

/-- C1, counterexample to the claim as stated: not every occurrence of a
mapped placeholder is replaced *by the mapped value*.  With the mapped value
`"$$"`, the ECMAScript replacement semantics of `String.replace` turn each
`$$` into a single literal `$`, so `"[A] [A]"` with `{A: "$$"}` yields
`"$ $"`, not the `"$$ $$"` the claim requires. -/
theorem claim1_counterexample :
    resolvePlaceholders "[A] [A]" [("A", "$$")] = .ok "$ $" ∧ ("$ $" : String) ≠ "$$ $$" := by
  constructor
  · decide
  · decide

/-- C1 (amended): for every mapping entry whose key has no regex
metacharacter and whose value has no `$`, the pass for that key replaces
*every* occurrence of the token `[`key`]`, not only the first — the result is
exactly the spec-side "replace every occurrence" function; in particular
`"[A] and [A] again"` with `{A: "X"}` yields `"X and X again"`. -/
theorem claim1_every_occurrence_replaced :
    (∀ (content k v : String), plainKey k = true → dollarFree v = true →
      resolvePlaceholders content [(k, v)] =
        .ok ⟨replaceEveryOccurrence '[' (k.toList ++ [']']) v.toList content.toList⟩) ∧
    resolvePlaceholders "[A] and [A] again" [("A", "X")] = .ok "X and X again" := by
  constructor
  · intro content k v hk hv
    rw [resolvePlaceholders_single]
    exact replaceJs_plain content k v hk hv
  · decide

/-- C1, witness: the general statement applied at a concrete input. -/
theorem claim1_witness :
    plainKey "K" = true ∧ dollarFree "W" = true ∧
    resolvePlaceholders "[K] x [K]" [("K", "W")] =
      .ok ⟨replaceEveryOccurrence '[' ("K".toList ++ [']']) "W".toList "[K] x [K]".toList⟩ :=
  ⟨by decide, by decide,
    claim1_every_occurrence_replaced.1 "[K] x [K]" "K" "W" (by decide) (by decide)⟩

/-! ### Claim C2 -/

/-- C2, counterexample to the claim as stated: the operation is not total.
For the mapped key `")"`, `new RegExp("\\[)\\]")` is a `SyntaxError`
(unmatched `)`), so `insertEntityWithFields` throws before any replacement:
no result string is produced for this input. -/
theorem claim2_counterexample :
    resolvePlaceholders "[A] [B]" [(")", "X")] = .thrown ∧
    ∀ out : String, resolvePlaceholders "[A] [B]" [(")", "X")] ≠ .ok out := by
  constructor
  · decide
  · intro out h
    have h2 : ReplaceResult.thrown = ReplaceResult.ok out := by
      rw [← h]
      decide
    exact ReplaceResult.noConfusion h2

/-- C2 (amended): for mappings whose keys are all free of regex
metacharacters the operation is total — it always returns a result string —
and a placeholder whose key is absent from the mapping is left untouched:
`"[A] [B]"` with `{A: "X"}` yields `"X [B]"`. -/
theorem claim2_unmapped_left_total :
    (∀ (content : String) (vs : List (String × String)),
      (∀ kv ∈ vs, plainKey kv.1 = true) → ∃ out, resolvePlaceholders content vs = .ok out) ∧
    resolvePlaceholders "[A] [B]" [("A", "X")] = .ok "X [B]" := by
  constructor
  · intro content vs h
    exact resolvePlaceholders_plainTotal vs content h
  · decide

/-- C2, witness: totality applied at a concrete plain-keyed mapping. -/
theorem claim2_witness :
    (∀ kv ∈ ([("A", "X")] : List (String × String)), plainKey kv.1 = true) ∧
    ∃ out, resolvePlaceholders "[A] [B]" [("A", "X")] = .ok out :=
  ⟨by decide, claim2_unmapped_left_total.1 "[A] [B]" [("A", "X")] (by decide)⟩

/-! ### Claim C3 -/

/-- C3, counterexample to the claim as stated: matching is not exact-token
for keys containing regex metacharacters.  The key `"A.B"` is compiled into
`new RegExp("\\[A.B\\]")`, where `.` matches any character: the content
`"[AXB]"` contains no literal token `[A.B]`, yet it is rewritten to `"v"`. -/
theorem claim3_counterexample :
    resolvePlaceholders "[AXB]" [("A.B", "v")] = .ok "v" ∧ ("v" : String) ≠ "[AXB]" := by
  constructor
  · decide
  · decide

/-- C3 (amended): for keys free of regex metacharacters, matching is
exact-token and purely textual: if the literal token `[`key`]` does not occur
in the content, the content is returned unchanged, whatever the replacement
value (nested or malformed brackets are just text that fails to match). -/
theorem claim3_exact_token :
    ∀ (content k v : String), plainKey k = true →
      ¬ ("[" ++ k ++ "]").toList <:+: content.toList →
      resolvePlaceholders content [(k, v)] = .ok content := by
  intro content k v hk hocc
  rw [resolvePlaceholders_single]
  have htok : ("[" ++ k ++ "]").toList = '[' :: (k.toList ++ [']']) := by
    show "[".toList ++ k.toList ++ "]".toList = _
    simp
  rw [htok] at hocc
  simp only [replaceJs, compileKey_plain k hk, List.cons_append]
  rw [replaceGAuxF_noOccur '[' (k.toList ++ [']']) v.toList
    (content.toList.length + 1) content.toList [] (by omega) hocc]
  cases content
  rfl

/-- C3, witness: the amended statement applied at a concrete input with no
occurrence of the token. -/
theorem claim3_witness :
    plainKey "STATE" = true ∧
    ¬ ("[" ++ "STATE" ++ "]").toList <:+: ("law of the State" : String).toList ∧
    resolvePlaceholders "law of the State" [("STATE", "Delaware")] = .ok "law of the State" :=
  ⟨by decide, by decide,
    claim3_exact_token "law of the State" "STATE" "Delaware" (by decide) (by decide)⟩

/-! ### Claim C10 -/

/-- C10: substitution is sequential over the mapping in iteration order, on
the progressively rewritten string: a `[B]` token *introduced* by the value
of the earlier key `A` is then replaced by the later key `B`, and reversing
the iteration order changes the output. -/
theorem claim10_sequential_order_dependent :
    resolvePlaceholders "[A]" [("A", "[B]"), ("B", "X")] = .ok "X" ∧
    resolvePlaceholders "[A]" [("B", "X"), ("A", "[B]")] = .ok "[B]" := by
  constructor
  · decide
  · decide

/-! ### Claim C4 -/

/-- C4: registering an entity whose category string is outside the closed
enumeration fails with `InvalidCategory` and returns the catalog unchanged
(no entity under that id is added or overwritten). -/
theorem claim4_invalid_category_rejected :
    ∀ (lib : EntityLibrary) (e : RawEntity),
      ¬ e.category ∈ (["legal", "boilerplate", "signature", "header", "footer"] : List String) →
      register lib e = (lib, some .invalidCategory) :=
  fun _ _ h => register_of_invalid (parseCategory_eq_none h)

/-- C4, witness: registering with `category = "invalid-value"` fails and
leaves the default catalog untouched. -/
theorem claim4_witness :
    ¬ rawBad.category ∈ (["legal", "boilerplate", "signature", "header", "footer"] : List String) ∧
    register entityLibrary rawBad = (entityLibrary, some .invalidCategory) :=
  ⟨by decide, claim4_invalid_category_rejected entityLibrary rawBad (by decide)⟩

/-! ### Claim C5 -/

/-- C5: registering an entity whose id is already present overwrites the
prior entry — the subsequent `get` returns the new entity, not the old one —
and the old entity is nowhere in the store afterwards (no history). -/
theorem claim5_register_overwrites :
    ∀ (lib : EntityLibrary) (raw : RawEntity) (c : Category) (e1 : StandardEntity),
      libWF lib → parseCategory raw.category = some c → getEntity lib raw.id = some e1 →
      mkEntity raw c ≠ e1 →
      (register lib raw).2 = none ∧
      getEntity (register lib raw).1 raw.id = some (mkEntity raw c) ∧
      e1 ∉ libValues (register lib raw).1 := by
  intro lib raw c e1 hwf hc hget hne
  rw [register_of_valid hc]
  refine ⟨rfl, getEntity_mapSet _ _ _, ?_⟩
  intro hmem
  rcases mem_values_mapSet hmem with h | ⟨p, hp, hpk, hpe⟩
  · exact hne h.symm
  · have h1 := (getEntity_eq_some hwf hget).1
    have h2 := hwf.2 p hp
    rw [hpe, h1] at h2
    exact hpk h2

/-- C5, witness: overwriting the stored `"e1"` entity. -/
theorem claim5_witness :
    (libWF lib0 ∧ parseCategory rawA2.category = some .legal ∧
     getEntity lib0 rawA2.id = some entA ∧ mkEntity rawA2 .legal ≠ entA) ∧
    (register lib0 rawA2).2 = none ∧
    getEntity (register lib0 rawA2).1 rawA2.id = some (mkEntity rawA2 .legal) ∧
    entA ∉ libValues (register lib0 rawA2).1 :=
  ⟨⟨by decide, by decide, by decide, by decide⟩,
    claim5_register_overwrites lib0 rawA2 .legal entA (by decide) (by decide) (by decide)
      (by decide)⟩

/-! ### Claim C6 -/

/-- C6: looking up an id that is not a key of the catalog returns the
not-found signal `none` as a normal value — `getEntity` is a total function
and never throws for absence. -/
theorem claim6_absent_is_none :
    ∀ (lib : EntityLibrary) (id : String),
      ¬ id ∈ lib.entities.map Prod.fst → getEntity lib id = none := by
  intro lib id h
  have hfind : lib.entities.find? (fun p => p.1 = id) = none :=
    List.find?_eq_none.2 (fun p hp => by
      simp only [decide_eq_true_eq]
      intro hpk
      exact h (List.mem_map.2 ⟨p, hp, hpk⟩))
  rw [getEntity, hfind]
  rfl

/-- C6, witness: the unknown id probed by the repository's own unit test
(`getEntity("nonexistent")` is `undefined`). -/
theorem claim6_witness :
    ¬ "nonexistent" ∈ entityLibrary.entities.map Prod.fst ∧
    getEntity entityLibrary "nonexistent" = none :=
  ⟨by decide, claim6_absent_is_none entityLibrary "nonexistent" (by decide)⟩

/-! ### Claim C7 -/

/-- C7: round-trip identity — every entity stored in a well-formed library is
returned unchanged by `getEntity` on its id — and placeholder resolution
never mutates the store: `insertEntityWithFields` only *reads* the entity and
resolves a copy of its content, so the same `getEntity` call still returns
the original entity afterwards, with its original content. -/
theorem claim7_roundtrip_immutable :
    ∀ (lib : EntityLibrary) (e : StandardEntity), libWF lib → e ∈ libValues lib →
      getEntity lib e.id = some e ∧
      ∀ vs : List (String × String),
        insertEntityWithFields lib ⟨e.id, vs⟩ = .resolved (resolvePlaceholders e.content vs) ∧
        getEntity lib e.id = some e := by
  intro lib e hwf he
  have hg := getEntity_of_mem_values hwf he
  refine ⟨hg, fun vs => ⟨?_, hg⟩⟩
  rw [insertEntityWithFields]
  simp [hg]

/-- C7, witness: the round trip and a resolution call on the stored `"e1"`
entity. -/
theorem claim7_witness :
    (libWF lib0 ∧ entA ∈ libValues lib0) ∧
    getEntity lib0 entA.id = some entA ∧
    insertEntityWithFields lib0 ⟨entA.id, [("X", "y")]⟩ =
      .resolved (resolvePlaceholders entA.content [("X", "y")]) ∧
    getEntity lib0 entA.id = some entA := by
  have h := claim7_roundtrip_immutable lib0 entA (by decide) (by decide)
  exact ⟨⟨by decide, by decide⟩, h.1, (h.2 [("X", "y")]).1, (h.2 [("X", "y")]).2⟩

/-! ### Claim C8 -/

/-- C8: `getByCategory c` returns exactly the stored entities with category
`c` — no omissions, nothing else — as a sublist of the values in insertion
order (a JS `Map` iterates in insertion order).  The concrete conjuncts show
the order is registration order even when it disagrees with alphabetical
order of names: `"Zeta Clause"` was registered first and is listed first. -/
theorem claim8_category_filter :
    (∀ (lib : EntityLibrary) (c : Category),
      (∀ e, e ∈ getByCategory lib c ↔ e ∈ libValues lib ∧ e.category = c) ∧
      (getByCategory lib c).Sublist (libValues lib)) ∧
    getByCategory demoLib .legal = [mkEntity rawZeta .legal, mkEntity rawAlpha .legal] ∧
    (mkEntity rawAlpha .legal).name.toList < (mkEntity rawZeta .legal).name.toList :=
  ⟨fun lib c => ⟨mem_getByCategory lib c, List.filter_sublist _⟩, by decide, by decide⟩

/-- C8, witness: the membership characterisation and order applied to the
default library. -/
theorem claim8_witness :
    (getByCategory entityLibrary .legal).Sublist (libValues entityLibrary) :=
  (claim8_category_filter.1 entityLibrary .legal).2

/-! ### Claim C9 -/

/-- A one-entity library whose content contains `"ss"`, used to exhibit the
Unicode case-conversion failure of `search`'s case-insensitivity. -/
def entPass : StandardEntity :=
  { id := "p1", name := "P", category := .boilerplate, content := "pass"
  , version := "1.0", lastUpdated := "2024-01-01" }

def libSS : EntityLibrary := ⟨[("p1", entPass)]⟩

/-- C9, counterexample to the claim as stated: the result sets of `search(q)`
and of the search for the upper-cased `q` are *not* identical for every query.
ECMAScript `toUpperCase` uses Unicode Default Case Conversion, which maps
`"ß"` (U+00DF) to `"SS"`, while `toLowerCase` leaves `"ß"` unchanged; so
against a catalog whose content contains `"ss"`, the query `"ß"` matches
nothing but its upper-cased form matches the entity. -/
theorem claim9_counterexample :
    upperStr "ß" = "SS" ∧
    search libSS (upperStr "ß") = [entPass] ∧
    search libSS "ß" = [] ∧
    search libSS (upperStr "ß") ≠ search libSS "ß" := by
  refine ⟨by decide, by decide, by decide, by decide⟩

/-- C9 (amended): `search` returns, in insertion order (a sublist of the
values), exactly the entities whose lowercased name or content contains the
lowercased query; for queries made of ASCII characters, searching the
upper-cased query gives the identical result list; and the empty query
returns every entity of the catalog.  (For non-ASCII queries Unicode case
conversion breaks the upper-case identity — see the counterexample.) -/
theorem claim9_search_semantics :
    ∀ (lib : EntityLibrary) (q : String),
      (∀ e, e ∈ search lib q ↔ e ∈ libValues lib ∧
        (strIncludes (lowerStr e.name) (lowerStr q) = true ∨
         strIncludes (lowerStr e.content) (lowerStr q) = true)) ∧
      (search lib q).Sublist (libValues lib) ∧
      ((∀ c ∈ q.toList, c.toNat < 128) → search lib (upperStr q) = search lib q) ∧
      search lib "" = libValues lib :=
  fun lib q => ⟨mem_search lib q, List.filter_sublist _,
    fun h => search_upperStr_ascii lib q h, search_empty lib⟩

/-- C9, witness: the amended statement applied to the default library at the
spec's example query, whose characters are all ASCII. -/
theorem claim9_witness :
    (∀ c ∈ ("confidentiality" : String).toList, c.toNat < 128) ∧
    search entityLibrary (upperStr "confidentiality") = search entityLibrary "confidentiality" :=
  ⟨by decide, (claim9_search_semantics entityLibrary "confidentiality").2.2.1 (by decide)⟩

end WordAddinGuide
